import Mathlib

/-!
Verification of the fiducial-selection core of pyGSTi
(`src/pygsti/algorithms/fiducialselection.py`).

The numerical kernel of the source is a pipeline
  circuit matrices → score matrix M → Gram matrix M·Mᵀ → eigenvalues →
  composite score / selection search.
The eigendecomposition itself is performed by `numpy.linalg.eigvalsh`,
an external LAPACK routine that is not part of this repository; every
piece of repository logic downstream of it is embedded here exactly,
with the raw eigenvalue list of the Gram matrix as an explicit input
(for a `dim × dim` Gram matrix `eigvalsh` returns exactly `dim`
eigenvalues, which is the only fact about it the source relies on).
Scores are modelled with exact rationals extended with the IEEE special
values `inf`/`nan` that the floating-point source can produce
(`1/0 → inf`, `0*inf → nan`), so that the clamping and comparison logic
of the source is reproduced faithfully.

Circuits are sequences of operation labels; only their length (operation
count), identity of their key, and cached transfer matrix enter the
algorithms under verification, so a circuit is embedded as `List ℕ` and
a transfer matrix as its flattened entry list (only Frobenius distances
between matrices are ever used).
-/

/-- A circuit: an ordered sequence of operation labels.  The empty list is
the distinguished empty circuit (key `'{}'`/`()` in the source). -/
abbrev Circuit := List ℕ

/-- An IEEE-style extended rational: the exact-arithmetic counterpart of the
Python floats produced by the scoring code.  `inf` arises from `1/0.0`,
`nan` from `0 * inf`.  Negative infinity never arises on the code paths
embedded here (all multipliers are nonnegative counts), so it is omitted. -/
inductive XRat where
  | fin (q : ℚ)
  | inf
  | nan
deriving DecidableEq

/-- IEEE addition restricted to the values above: `nan` is absorbing,
`inf + finite = inf`, `inf + inf = inf`. -/
def XRat.add : XRat → XRat → XRat
  | .nan, _ => .nan
  | _, .nan => .nan
  | .inf, _ => .inf
  | _, .inf => .inf
  | .fin a, .fin b => .fin (a + b)

instance : Add XRat := ⟨XRat.add⟩

/-- Multiplication by a natural-number count (the `numFids` multiplier of the
source): `0 * inf = nan` exactly as in IEEE arithmetic. -/
def XRat.mulNat (n : ℕ) : XRat → XRat
  | .fin q => .fin (n * q)
  | .inf => if n = 0 then .nan else .inf
  | .nan => .nan

/-- Multiplication by a rational (used for `score * slack_frac`).
`inf * q` is `inf` for positive `q` and collapsed to `nan` otherwise
(`0 * inf` is `nan` in IEEE; a negative multiplier would give `-inf`,
which never feeds back into any comparison the embedding relies on). -/
def XRat.mulQ : XRat → ℚ → XRat
  | .fin a, q => .fin (a * q)
  | .inf, q => if 0 < q then .inf else .nan
  | .nan, _ => .nan

/-- IEEE `x <= 0` test: false for `inf` and for `nan`. -/
def XRat.leZero : XRat → Bool
  | .fin q => decide (q ≤ 0)
  | _ => false

/-- IEEE `<=` comparison: any comparison against `nan` is false. -/
def XRat.bleq : XRat → XRat → Bool
  | .nan, _ => false
  | _, .nan => false
  | .fin a, .fin b => decide (a ≤ b)
  | .fin _, .inf => true
  | .inf, .fin _ => false
  | .inf, .inf => true

/-- IEEE `<` comparison: any comparison against `nan` is false. -/
def XRat.blt : XRat → XRat → Bool
  | .nan, _ => false
  | _, .nan => false
  | .fin a, .fin b => decide (a < b)
  | .fin _, .inf => true
  | .inf, _ => false

/-- Whether an extended rational is an ordinary (finite) number. -/
def XRat.isFinite : XRat → Bool
  | .fin _ => true
  | _ => false

/-- The `score_func` option of the scoring functions: `'all'` or `'worst'`
(any other string raises a `ValueError` in the source before any score is
produced, so the embedding uses an exhaustive enumeration). -/
inductive ScoreFunc where
  | all
  | worst
deriving DecidableEq

/-- Modelled from the spec: `CompositeScore` lives in
`pygsti.algorithms.scoring`, which is not under `src/`.  Per the spec it is
the triple `(-N, minor, N)`, ordered primarily by `major = -N` ascending and
secondarily by `minor` ascending. -/
structure CompositeScore where
  major : ℤ
  minor : XRat
  N : ℕ
deriving DecidableEq

instance : Inhabited CompositeScore := ⟨⟨0, .fin 0, 0⟩⟩

/-- Modelled from the spec: the comparison used to order `CompositeScore`
values — primarily by `major` ascending, then by `minor` ascending. -/
def CompositeScore.blt (a b : CompositeScore) : Bool :=
  decide (a.major < b.major) || (decide (a.major = b.major) && XRat.blt a.minor b.minor)

/-- The hardcoded spectrum threshold `10**-10` of
`compute_composite_fiducial_score`. -/
def spectrumThreshold : ℚ := 1 / 10 ^ 10

/-- The minimum `_np.min` of a nonempty list (the source only applies it to the nonempty
slice `spectrum[-N_nonzero:]`); `0` on the empty list, where numpy would
raise. -/
def list_min : List ℚ → ℚ
  | [] => 0
  | x :: xs => xs.foldl min x

/-- Rational absolute value, written out so that it evaluates inside the
kernel. -/
def qabs (x : ℚ) : ℚ := if x < 0 then -x else x

/-- Insert a rational into an ascending list (one step of insertion sort). -/
def insert_asc (x : ℚ) : List ℚ → List ℚ
  | [] => [x]
  | y :: ys => if x ≤ y then x :: y :: ys else y :: insert_asc x ys

/-- Ascending insertion sort for rational lists (the embedding of
`_np.sort`). -/
def sort_asc (l : List ℚ) : List ℚ := l.foldr insert_asc []

/-- The sorted absolute spectrum
`_np.sort(_np.abs(_np.linalg.eigvalsh(scoreSqMx)))` computed from the raw
eigenvalue list returned by the external eigensolver. -/
def sortedAbsSpectrum (eigs : List ℚ) : List ℚ :=
  sort_asc (eigs.map qabs)

/-- Embedding of `compute_composite_fiducial_score` (fiducialselection.py, lines 591-710),
from the Gram spectrum onward.  `eigs` is the raw output of
`_np.linalg.eigvalsh(scoreSqMx)`; the function sorts its absolute values,
counts the eigenvalues reaching the hardcoded `10**-10` threshold, computes
the `'all'`/`'worst'` minor score of the top `N_nonzero` eigenvalues with the
`l1_penalty`/`op_penalty` linear penalties, and returns the
`CompositeScore (-N_nonzero, nonzero_score, N_nonzero)` together with the
sorted spectrum (the `return_all=True` output; `return_all=False` drops the
second component).  The `threshold` argument of the source is unused in its
body and therefore omitted.  The reciprocals in the happy path divide only by
slice entries that are at least `10**-10 > 0`, so exact rational division
coincides with the floating-point semantics there. -/
def compute_composite_fiducial_score (fid_list : List Circuit) (eigs : List ℚ)
    (score_func : ScoreFunc) (l1_penalty op_penalty : ℚ) :
    CompositeScore × List ℚ :=
  let numFids := fid_list.length
  let spectrum := sortedAbsSpectrum eigs
  let specLen := spectrum.length
  let N_nonzero := specLen - spectrum.countP (fun x => decide (x < spectrumThreshold))
  let nonzero_score : XRat :=
    if N_nonzero = 0 then .inf
    else
      match score_func with
      | .all => .fin ((numFids : ℚ) *
          ((spectrum.drop (specLen - N_nonzero)).map (fun x => 1 / x)).sum)
      | .worst => .fin ((numFids : ℚ) *
          (1 / list_min (spectrum.drop (specLen - N_nonzero))))
  let nonzero_score := nonzero_score + .fin (l1_penalty * (fid_list.length : ℚ))
  let nonzero_score := nonzero_score +
      .fin (op_penalty * ((fid_list.map List.length).sum : ℚ))
  (⟨-(N_nonzero : ℤ), nonzero_score, N_nonzero⟩, spectrum)

/-- Embedding of `test_fiducial_list` (fiducialselection.py, lines 713-792): scores the
list with `return_all=True` and reports informational completeness as
`score.N < len(spectrum)` being false. -/
def test_fiducial_list (fid_list : List Circuit) (eigs : List ℚ)
    (score_func : ScoreFunc) (l1_penalty op_penalty : ℚ) : Bool :=
  let scoreSpectrum := compute_composite_fiducial_score fid_list eigs score_func
      l1_penalty op_penalty
  if scoreSpectrum.1.N < scoreSpectrum.2.length then false else true

/-!
### `clean_fid_list` (fiducialselection.py, lines 268-337)

The circuit cache built by `create_circuit_cache` is a Python dict mapping
circuit keys (in insertion order, which follows the available-fiducial list)
to dense transfer matrices; it is embedded as an association list with
(as for every dict) pairwise-distinct keys.  The source compares matrices by
`_np.linalg.norm(A - B) < eq_thresh` (Frobenius norm); in exact arithmetic
this is equivalent to comparing the squared norm against `eq_thresh²`, which
keeps everything inside ℚ.
-/

/-- Squared Frobenius distance of two (flattened) matrices. -/
def frob_dist_sq (a b : List ℚ) : ℚ :=
  ((a.zipWith (fun x y => x - y) b).map (fun x => x * x)).sum

/-- The comparison `_np.linalg.norm(A - B) < eq_thresh`, via squared norms. -/
def is_close_mx (a b : List ℚ) (eq_thresh : ℚ) : Bool :=
  decide (frob_dist_sq a b < eq_thresh * eq_thresh)

/-- The flattened `d × d` identity matrix `_np.identity(model.dim)`. -/
def identity_mx (d : ℕ) : List ℚ :=
  (List.range (d * d)).map (fun k => if k % (d + 1) = 0 then 1 else 0)

/-- Dict lookup in the circuit cache (`cleaned_circuit_cache_1[ckt]`);
total, returning the flattened zero-length matrix on a missing key, which
never happens on the calls the source makes. -/
def lookup_mx (cache : List (Circuit × List ℚ)) (k : Circuit) : List ℚ :=
  ((cache.find? (fun p => p.1 = k)).map Prod.snd).getD []

/-- The duplicate-removal loop of `clean_fid_list` (lines 305-321): the
source reverses the key list and repeatedly pops from its end, so it
processes keys in original insertion order; each kept key removes every
later key whose cached matrix is within `eq_thresh` Frobenius distance of
the kept key's matrix. -/
def dedup_keys (look : Circuit → List ℚ) (eq_thresh : ℚ) : List Circuit → List Circuit
  | [] => []
  | c :: rest =>
    c :: dedup_keys look eq_thresh
      (rest.filter (fun c2 => ¬ is_close_mx (look c2) (look c) eq_thresh))
termination_by l => l.length
decreasing_by
  simp only [List.length_cons]
  exact Nat.lt_succ_of_le (List.length_filter_le _ _)

/-- The identity-removal pass of `clean_fid_list` (lines 274-287): every
entry whose key is not the empty circuit and whose matrix is within
`eq_thresh` of the identity is deleted. -/
def identity_pass (d : ℕ) (circuit_cache : List (Circuit × List ℚ))
    (eq_thresh : ℚ) : List (Circuit × List ℚ) :=
  circuit_cache.filter
    (fun p => p.1 = [] ∨ ¬ is_close_mx p.2 (identity_mx d) eq_thresh)

/-- The key list `unique_circs` surviving both passes of `clean_fid_list`. -/
def clean_unique_keys (d : ℕ) (circuit_cache : List (Circuit × List ℚ))
    (eq_thresh : ℚ) : List Circuit :=
  dedup_keys (lookup_mx (identity_pass d circuit_cache eq_thresh)) eq_thresh
    ((identity_pass d circuit_cache eq_thresh).map Prod.fst)

/-- Embedding of `clean_fid_list` (lines 268-337) with both cleaning passes.  The
identity pass deletes every non-empty-key circuit whose matrix is within
`eq_thresh` of the identity (the empty key `'{}'`/`()` — here `[]` — is
skipped); the duplicate pass is `dedup_keys`; the surviving fiducials are
the members of `available_fid_list` whose key remains, in their original
order.  (With `drop_duplicates=False` the source raises a `NameError` on
the unbound `cleaned_circuit_cache_2`; only the flags-enabled path — the
one exercised by `find_fiducials` — is embedded.) -/
def clean_fid_list (d : ℕ) (circuit_cache : List (Circuit × List ℚ))
    (available_fid_list : List Circuit) (eq_thresh : ℚ) :
    List Circuit × List (Circuit × List ℚ) :=
  let cache1 := identity_pass d circuit_cache eq_thresh
  let uniqueKeys := clean_unique_keys d circuit_cache eq_thresh
  let cache2 := uniqueKeys.map (fun k => (k, lookup_mx cache1 k))
  let cleanedFidList := available_fid_list.filter (fun c => uniqueKeys.contains c)
  (cleanedFidList, cache2)

/-!
### `_find_fiducials_integer_slack` (fiducialselection.py, lines 862-1185)

The selector's objective `compute_score` builds the score matrix from the
columns selected by the 0/1 weight vector and feeds its Gram matrix to
`_np.linalg.eigvalsh`; as before the external eigensolver is an explicit
parameter `spectrumOf`, mapping a weight vector to the raw eigenvalue list
of the Gram matrix of the selected columns.  The memo dict `scoreD` caches
`compute_score`, which is deterministic, so a memo hit returns exactly the
value a recomputation would; the embedding therefore calls the objective
directly where the source consults `scoreD`.  The per-round neighbor scans
instrument the source's "Found better neighbor" log line: the returned
`MoveRecord` trace holds one record per accepted move, carrying the state
the comparison was made against.
-/

/-- Python truthiness of the optional float arguments `fixed_slack` /
`slack_frac`: a supplied `0.0` is falsy. -/
def truthyQ : Option ℚ → Bool
  | none => false
  | some q => !(q == 0)

/-- Embedding of `xor` (fiducialselection.py, lines 247-265) at two arguments:
`sum(bool(x) for x in args) == 1`. -/
def xor_args (a b : Bool) : Bool := (a.toNat + b.toNat) == 1

/-- IEEE reciprocal `1. / q`: `inf` at `q = 0`. -/
def qinv (q : ℚ) : XRat := if q = 0 then .inf else .fin (1 / q)

/-- Modelled from the spec: `_scoring.list_score` lives in
`pygsti.algorithms.scoring`, which is not under `src/`.  Per the spec and
the source docstrings, `'all'` sums the reciprocals of the eigenvalues and
`'worst'` takes the reciprocal of the smallest one; a zero eigenvalue gives
`inf` (IEEE `1/0`). -/
def list_score (input_list : List ℚ) : ScoreFunc → XRat
  | .all => (input_list.map qinv).foldr XRat.add (.fin 0)
  | .worst => qinv (list_min input_list)

/-- The selector's internal objective `compute_score` (lines 1002-1026):
the `force_empty` sentinel branch, then
`numFids * list_score(eigvalsh(scoreSqMx), score_func)` with the
non-positive/infinite result clamped to `1e10`.  `numFids` is
`_np.sum(wts)`, and `0 * inf` is IEEE `nan`, which the clamp does NOT
catch (`nan <= 0` and `isinf(nan)` are both false). -/
def slack_compute_score (force_empty : Bool) (force_empty_score : ℚ)
    (score_func : ScoreFunc) (spectrumOf : List ℕ → List ℚ)
    (wts : List ℕ) : XRat :=
  if force_empty ∧ (wts.take 1).countP (fun x => decide (x ≠ 0)) ≠ 1 then
    .fin force_empty_score
  else if (XRat.mulNat wts.sum (list_score (spectrumOf wts) score_func)).leZero = true ∨
      XRat.mulNat wts.sum (list_score (spectrumOf wts) score_func) = XRat.inf then
    .fin ((10 : ℚ) ^ 10)
  else
    XRat.mulNat wts.sum (list_score (spectrumOf wts) score_func)

/-- One neighbor of `_get_neighbors` (lines 1088-1093): toggle coordinate
`i` of the vector between 0 and 1. -/
def toggle_weight (w : List ℕ) (i : ℕ) : List ℕ :=
  w.set i ((w.getD i 0 + 1) % 2)

/-- The mutable state of the slack selector's main loop. -/
structure SlackState where
  weights : List ℕ
  score : XRat
  L1 : ℕ
  lessWeightOnly : Bool
deriving DecidableEq

/-- One accepted move of a neighbor scan (one "Found better neighbor" log
line): the accepted neighbor with its score and weight, together with the
current score/weight/mode it was compared against. -/
structure MoveRecord where
  neighbor : List ℕ
  nScore : XRat
  nL1 : ℕ
  prevScore : XRat
  prevL1 : ℕ
  mode : Bool
deriving DecidableEq

/-- One step of the main neighbor scan (lines 1113-1128).  The neighbor
generator was created from the weight vector the round started with
(`startW`); the acceptance test
`neighborScore <= score and (neighborL1 < L1 or not lessWeightOnly)`
compares against the *current* state, which earlier accepted moves of the
same scan may already have changed. -/
def scan_step (cs : List ℕ → XRat) (startW : List ℕ)
    (acc : SlackState × Bool × List MoveRecord) (i : ℕ) :
    SlackState × Bool × List MoveRecord :=
  let s := acc.1
  let neighbor := toggle_weight startW i
  let neighborL1 := neighbor.sum
  let neighborScore := cs neighbor
  if neighborScore.bleq s.score && (decide (neighborL1 < s.L1) || !s.lessWeightOnly) then
    (⟨neighbor, neighborScore, neighborL1, s.lessWeightOnly⟩, true,
      acc.2.2 ++ [⟨neighbor, neighborScore, neighborL1, s.score, s.L1, s.lessWeightOnly⟩])
  else
    (s, acc.2.1, acc.2.2)

/-- The main neighbor scan of one round (lines 1113-1128). -/
def slack_scan (cs : List ℕ → XRat) (nFids : ℕ) (startW : List ℕ)
    (s0 : SlackState) : SlackState × Bool × List MoveRecord :=
  (List.range nFids).foldl (scan_step cs startW) (s0, false, [])

/-- One step of the relaxed re-scan (lines 1148-1155), entered only after a
scan with no accepted move: accept a neighbor exactly when it has strictly
smaller weight and its memoized score is strictly below the relaxed
current score. -/
def relaxed_step (cs : List ℕ → XRat) (startW : List ℕ)
    (acc : SlackState × Bool × List MoveRecord) (i : ℕ) :
    SlackState × Bool × List MoveRecord :=
  let s := acc.1
  let neighbor := toggle_weight startW i
  if decide (neighbor.sum < s.L1) && (cs neighbor).blt s.score then
    (⟨neighbor, cs neighbor, neighbor.sum, s.lessWeightOnly⟩, true,
      acc.2.2 ++ [⟨neighbor, cs neighbor, neighbor.sum, s.score, s.L1, s.lessWeightOnly⟩])
  else
    acc

/-- The relaxed neighbor re-scan of one round (lines 1148-1155). -/
def slack_scan_relaxed (cs : List ℕ → XRat) (nFids : ℕ) (startW : List ℕ)
    (s0 : SlackState) : SlackState × Bool × List MoveRecord :=
  (List.range nFids).foldl (relaxed_step cs startW) (s0, false, [])

/-- The score relaxation (lines 1134-1146): `score += slack` where
`slack = score + fixed_slack` when `fixed_slack` is truthy and
`slack = score * slack_frac` when `slack_frac` is truthy (so the additive
branch actually doubles the score before adding `fixed_slack`, exactly as
the source does).  The final branch is unreachable under the xor
precondition checked at entry. -/
def slack_relaxed_score (fixed_slack slack_frac : Option ℚ) (score : XRat) : XRat :=
  let slack :=
    if truthyQ fixed_slack then score + .fin (fixed_slack.getD 0)
    else if truthyQ slack_frac then score.mulQ (slack_frac.getD 0)
    else .fin 0
  score + slack

/-- One round of the slack selector's main loop (lines 1106-1161): a main
scan; if it accepted no move, switch permanently to less-weight-only mode,
relax the score and re-scan; the returned flag says whether the loop
continues (a move was found). -/
def slack_round (cs : List ℕ → XRat) (fixed_slack slack_frac : Option ℚ)
    (nFids : ℕ) (s : SlackState) : SlackState × Bool :=
  let scan1 := slack_scan cs nFids s.weights s
  if scan1.2.1 then (scan1.1, true)
  else
    let s1 : SlackState := ⟨scan1.1.weights, scan1.1.score, scan1.1.L1, true⟩
    let s2 : SlackState :=
      ⟨s1.weights, slack_relaxed_score fixed_slack slack_frac s1.score, s1.L1, true⟩
    let scan2 := slack_scan_relaxed cs nFids s2.weights s2
    (scan2.1, scan2.2.1)

/-- The bounded main loop `for iIter in range(max_iter)` with its
stationary-point break. -/
def slack_loop (cs : List ℕ → XRat) (fixed_slack slack_frac : Option ℚ)
    (nFids : ℕ) : ℕ → SlackState → SlackState
  | 0, s => s
  | k + 1, s =>
    let r := slack_round cs fixed_slack slack_frac nFids s
    if r.2 then slack_loop cs fixed_slack slack_frac nFids k r.1 else r.1

/-- The `goodFidList` extraction (lines 1169-1172): the fiducials whose final
weight is 1. -/
def select_fids (fid_list : List Circuit) (weights : List ℕ) : List Circuit :=
  ((fid_list.zip weights).filter (fun p => p.2 = 1)).map Prod.fst

/-- Embedding of `_find_fiducials_integer_slack` (lines 862-1185): the xor configuration
check, the initial feasibility test with its `None` abort, and the
hill-climbing loop.  `fullEigs` is the eigensolver output for the complete
candidate list (the initial `test_fiducial_list` call) and `spectrumOf` the
eigensolver oracle for weight-selected subsets.  The `fixed_num` mode
(lines 1028-1086) is an orthogonal exhaustive-enumeration branch that no
claim concerns; it is not modelled (`fixed_num=None` path only). -/
def find_fiducials_integer_slack (fid_list : List Circuit) (fullEigs : List ℚ)
    (spectrumOf : List ℕ → List ℚ) (score_func : ScoreFunc) (max_iter : ℕ)
    (fixed_slack slack_frac : Option ℚ) (initial_weights : Option (List ℕ))
    (force_empty : Bool) (force_empty_score : ℚ) :
    Except String (Option (List Circuit)) :=
  if ¬ xor_args (truthyQ fixed_slack) (truthyQ slack_frac) then
    .error "One and only one of fixed_slack or slack_frac should be specified!"
  else if test_fiducial_list fid_list fullEigs score_func 0 0 = false then
    .ok none
  else
    let nFids := fid_list.length
    let cs := slack_compute_score force_empty force_empty_score score_func spectrumOf
    let weights0 := match initial_weights with
      | some iw => iw.map (fun x => if x ≠ 0 then 1 else 0)
      | none => List.replicate nFids 1
    let s0 : SlackState := ⟨weights0, cs weights0, weights0.sum, initial_weights.isNone⟩
    let sF := slack_loop cs fixed_slack slack_frac nFids max_iter s0
    .ok (some (select_fids fid_list sF.weights))

/-!
### `_find_fiducials_grasp` (fiducialselection.py, lines 1188-1372)

One GRASP restart (`_grasp.run_grasp_iteration`, in the `pygsti.algorithms.grasp`
module that is not under `src/`) is an external randomized step; it is
embedded as an oracle `run_iter : iteration → attempt → Except ε (init, local)`
returning the restart's initial and locally-optimized solutions or the
exception it raised, indexed by the retry attempt (`failCount`) so that the
retry semantics of the source's `try/except` loop is fully captured.
-/

/-- The `while not success and failCount < 10` retry loop of one GRASP
iteration (lines 1343-1366): run the attempt at the current `failCount`;
on an exception, re-raise it if the incremented `failCount` reaches 10 and
otherwise retry.  `fuel` is an upper bound on the remaining loop entries
(the loop is always entered with `fuel = 10 - failCount > 0`, so the
out-of-fuel branch is never taken on the source's call). -/
def grasp_try_loop (f : ℕ → Except String α) : ℕ → ℕ → Except String α
  | failCount, fuel + 1 =>
    match f failCount with
    | .ok a => .ok a
    | .error e => if failCount + 1 = 10 then .error e else grasp_try_loop f (failCount + 1) fuel
  | failCount, 0 => f failCount

/-- One GRASP iteration with the source's bounded retry (start at
`failCount = 0`, at most 10 attempts, the 10th failure propagates). -/
def grasp_retry (f : ℕ → Except String α) : Except String α :=
  grasp_try_loop f 0 10

/-- The `for iteration in range(iterations)` loop (lines 1338-1366),
collecting each restart's initial and local solutions in order; an
exception surviving a restart's retry loop aborts the whole call. -/
def grasp_loop_aux (run_iter : ℕ → ℕ → Except String (List Circuit × List Circuit)) :
    ℕ → ℕ → List (List Circuit) → List (List Circuit) →
    Except String (List (List Circuit) × List (List Circuit))
  | _, 0, accInit, accLocal => .ok (accInit, accLocal)
  | iteration, remaining + 1, accInit, accLocal =>
    match grasp_retry (run_iter iteration) with
    | .error e => .error e
    | .ok soln =>
      grasp_loop_aux run_iter (iteration + 1) remaining
        (accInit ++ [soln.1]) (accLocal ++ [soln.2])

/-- All `iterations` GRASP restarts, in order. -/
def grasp_loop (run_iter : ℕ → ℕ → Except String (List Circuit × List Circuit))
    (iterations : ℕ) :
    Except String (List (List Circuit) × List (List Circuit)) :=
  grasp_loop_aux run_iter 0 iterations [] []

/-- The argmin `_np.argmin` over composite scores: index of the first minimum. -/
def argmin_cs (scores : List CompositeScore) : ℕ :=
  (scores.enum.foldl
    (fun best p => if CompositeScore.blt p.2 best.1 then (p.2, p.1) else best)
    (scores.headD default, 0)).2

/-- The two return shapes of `_find_fiducials_grasp`: a bare best solution,
or (with `return_all`) the triple of best solution, per-restart initial
solutions and per-restart local solutions; `none` components encode the
`None` sentinels of the infeasible-universe abort. -/
inductive GraspResult where
  | single (best : Option (List Circuit))
  | triple (best : Option (List Circuit)) (inits : Option (List (List Circuit)))
      (locals : Option (List (List Circuit)))
deriving DecidableEq

/-- Embedding of `_find_fiducials_grasp` (lines 1188-1372): the `prep_or_meas`
validation, the initial feasibility test with its `None`-sentinel abort,
the `force_empty` initial-weight construction `fidsLens.index(0)` (a
`ValueError` when no zero-length circuit exists), the retried restarts,
and the final argmin over the per-restart solutions re-scored with the
final `l1_penalty`.  `fullEigs` is the eigensolver output for the complete
candidate list and `final_eigs_of` the eigensolver oracle used by
`final_score_fn`. -/
def find_fiducials_grasp (fids_list : List Circuit) (prep_or_meas : String)
    (iterations : ℕ) (score_func : ScoreFunc) (op_penalty l1_penalty : ℚ)
    (return_all force_empty : Bool) (fullEigs : List ℚ)
    (final_eigs_of : List Circuit → List ℚ)
    (run_iter : ℕ → ℕ → Except String (List Circuit × List Circuit)) :
    Except String GraspResult :=
  if ¬ (prep_or_meas = "prep" ∨ prep_or_meas = "meas") then
    .error "invalid value for prep_or_meas (must be prep or meas)!"
  else if test_fiducial_list fids_list fullEigs score_func 0 0 = false then
    .ok (if return_all then .triple none none none else .single none)
  else if force_empty ∧ ((fids_list.map List.length).indexOf? 0).isNone then
    .error "ValueError: 0 is not in list"
  else
    match grasp_loop run_iter iterations with
    | .error e => .error e
    | .ok solns =>
      let finalScores := solns.2.map (fun soln =>
        (compute_composite_fiducial_score soln (final_eigs_of soln) score_func
          l1_penalty op_penalty).1)
      let bestSoln := solns.2.getD (argmin_cs finalScores) []
      .ok (if return_all then .triple (some bestSoln) (some solns.1) (some solns.2)
           else .single (some bestSoln))

/-- The local variable `N_nonzero` of `compute_composite_fiducial_score`:
the number of sorted absolute eigenvalues not strictly below the hardcoded
threshold. -/
def gram_N (eigs : List ℚ) : ℕ :=
  (sortedAbsSpectrum eigs).length -
    (sortedAbsSpectrum eigs).countP (fun x => decide (x < spectrumThreshold))

/-- The slice `spectrum[-N_nonzero:]` of `compute_composite_fiducial_score`:
the top `N_nonzero` sorted absolute eigenvalues. -/
def top_slice (eigs : List ℚ) : List ℚ :=
  (sortedAbsSpectrum eigs).drop ((sortedAbsSpectrum eigs).length - gram_N eigs)

/-- The spec's minor-score reduction of the top-`N` eigenvalues of a sorted
spectrum, stated from the spec's words for comparison with the embedded
source: `'all'` sums the reciprocals of the top `N` eigenvalues, `'worst'`
takes the reciprocal of the smallest of them. -/
def spec_minor_formula (score_func : ScoreFunc) (spectrum : List ℚ) (N : ℕ) : ℚ :=
  match score_func with
  | .all => ((spectrum.drop (spectrum.length - N)).map (fun x => 1 / x)).sum
  | .worst => 1 / list_min (spectrum.drop (spectrum.length - N))

/-! ### Basic facts about the sorted spectrum -/

theorem XRat.fin_add_fin (a b : ℚ) :
    XRat.fin a + XRat.fin b = XRat.fin (a + b) := rfl

theorem insert_asc_length (x : ℚ) (l : List ℚ) :
    (insert_asc x l).length = l.length + 1 := by
  induction l with
  | nil => rfl
  | cons y ys ih =>
    simp only [insert_asc]
    split
    · simp
    · simp only [List.length_cons, ih]

theorem sort_asc_length (l : List ℚ) : (sort_asc l).length = l.length := by
  induction l with
  | nil => rfl
  | cons x xs ih =>
    simp only [sort_asc, List.foldr] at ih ⊢
    rw [insert_asc_length, ih, List.length_cons]

theorem insert_asc_countP (p : ℚ → Bool) (x : ℚ) (l : List ℚ) :
    (insert_asc x l).countP p = (x :: l).countP p := by
  induction l with
  | nil => rfl
  | cons y ys ih =>
    simp only [insert_asc]
    split
    · rfl
    · simp only [List.countP_cons, ih]
      omega

theorem sort_asc_countP (p : ℚ → Bool) (l : List ℚ) :
    (sort_asc l).countP p = l.countP p := by
  induction l with
  | nil => rfl
  | cons x xs ih =>
    simp only [sort_asc, List.foldr] at ih ⊢
    rw [insert_asc_countP, List.countP_cons, List.countP_cons, ih]

theorem sortedAbsSpectrum_length (eigs : List ℚ) :
    (sortedAbsSpectrum eigs).length = eigs.length := by
  rw [sortedAbsSpectrum, sort_asc_length, List.length_map]

theorem composite_score_N_eq (fid_list : List Circuit) (eigs : List ℚ)
    (score_func : ScoreFunc) (l1_penalty op_penalty : ℚ) :
    (compute_composite_fiducial_score fid_list eigs score_func l1_penalty
      op_penalty).1.N =
    (sortedAbsSpectrum eigs).length -
      (sortedAbsSpectrum eigs).countP (fun x => decide (x < spectrumThreshold)) := rfl

theorem composite_score_spectrum_eq (fid_list : List Circuit) (eigs : List ℚ)
    (score_func : ScoreFunc) (l1_penalty op_penalty : ℚ) :
    (compute_composite_fiducial_score fid_list eigs score_func l1_penalty
      op_penalty).2 = sortedAbsSpectrum eigs := rfl

/-- C1: for every model and circuit list (either role), the `N` component of
the composite score is at most the model dimension (= the number of
eigenvalues `eigvalsh` returns for the `dim × dim` Gram matrix), and
`test_fiducial_list` returns true exactly when `N` equals that dimension,
i.e. the length of the Gram spectrum. -/
theorem c1_N_le_dim_and_test_iff (dim : ℕ) (fid_list : List Circuit)
    (eigs : List ℚ) (score_func : ScoreFunc) (l1_penalty op_penalty : ℚ)
    (h : eigs.length = dim) :
    (compute_composite_fiducial_score fid_list eigs score_func l1_penalty
      op_penalty).1.N ≤ dim ∧
    (test_fiducial_list fid_list eigs score_func l1_penalty op_penalty = true ↔
     (compute_composite_fiducial_score fid_list eigs score_func l1_penalty
       op_penalty).1.N = dim) := by
  have hspec : (sortedAbsSpectrum eigs).length = dim := by
    rw [sortedAbsSpectrum_length, h]
  have hNle : (compute_composite_fiducial_score fid_list eigs score_func
      l1_penalty op_penalty).1.N ≤ dim := by
    rw [composite_score_N_eq, ← hspec]
    exact Nat.sub_le _ _
  refine ⟨hNle, ?_⟩
  have htest : test_fiducial_list fid_list eigs score_func l1_penalty op_penalty =
      (if (compute_composite_fiducial_score fid_list eigs score_func l1_penalty
        op_penalty).1.N < dim then false else true) := by
    rw [test_fiducial_list, ← hspec]
    rfl
  rw [htest]
  by_cases hlt : (compute_composite_fiducial_score fid_list eigs score_func
      l1_penalty op_penalty).1.N < dim
  · simp only [if_pos hlt]
    constructor
    · intro hfalse
      exact absurd hfalse (by simp)
    · intro heq
      omega
  · simp only [if_neg hlt]
    constructor
    · intro _
      omega
    · intro _
      trivial

/-- Witness for C1 at `dim = 2`, `eigs = [3, 0]`. -/
theorem c1_N_le_dim_and_test_iff_witness :
    (compute_composite_fiducial_score [[]] [3, 0] ScoreFunc.all 0 0).1.N ≤ 2 ∧
    (test_fiducial_list [[]] [3, 0] ScoreFunc.all 0 0 = true ↔
     (compute_composite_fiducial_score [[]] [3, 0] ScoreFunc.all 0 0).1.N = 2) :=
  c1_N_le_dim_and_test_iff 2 [[]] [3, 0] ScoreFunc.all 0 0 rfl

theorem countP_lt_add_countP_ge (t : ℚ) (f : ℚ → ℚ) (l : List ℚ) :
    l.countP (fun x => decide (f x < t)) + l.countP (fun x => decide (t ≤ f x)) =
    l.length := by
  induction l with
  | nil => rfl
  | cons x xs ih =>
    simp only [List.countP_cons, List.length_cons]
    by_cases h : f x < t
    · have h2 : ¬ t ≤ f x := not_le.mpr h
      simp [h, h2]
      omega
    · have h2 : t ≤ f x := not_lt.mp h
      simp [h, h2]
      omega

theorem composite_score_N_eq_gram_N (fid_list : List Circuit) (eigs : List ℚ)
    (score_func : ScoreFunc) (l1_penalty op_penalty : ℚ) :
    (compute_composite_fiducial_score fid_list eigs score_func l1_penalty
      op_penalty).1.N = gram_N eigs := rfl

theorem composite_score_minor_eq (fid_list : List Circuit) (eigs : List ℚ)
    (score_func : ScoreFunc) (l1_penalty op_penalty : ℚ) :
    (compute_composite_fiducial_score fid_list eigs score_func l1_penalty
      op_penalty).1.minor =
    (if gram_N eigs = 0 then XRat.inf
     else XRat.fin ((fid_list.length : ℚ) * spec_minor_formula score_func
       (sortedAbsSpectrum eigs) (gram_N eigs))) +
    XRat.fin (l1_penalty * (fid_list.length : ℚ)) +
    XRat.fin (op_penalty * ((fid_list.map List.length).sum : ℚ)) := by
  cases score_func <;> rfl

/-- Counterexample for C3: at the spectrum `[10⁻¹⁰]` the computed `N` is 1
(the source counts eigenvalues *reaching* `10**-10` as nonzero), while the
claim's count of eigenvalues *strictly exceeding* `10**-10` is 0. -/
theorem c3_threshold_counterexample :
    ¬ ((compute_composite_fiducial_score [[]] [1 / 10 ^ 10] ScoreFunc.all 0 0).1.N =
       (compute_composite_fiducial_score [[]] [1 / 10 ^ 10] ScoreFunc.all 0 0).2.countP
         (fun x => decide (spectrumThreshold < x))) := by
  have h1 : (compute_composite_fiducial_score [[]] [1 / 10 ^ 10] ScoreFunc.all 0 0).1.N = 1 := by
    rw [composite_score_N_eq_gram_N]
    norm_num [gram_N, sortedAbsSpectrum, sort_asc, insert_asc, qabs,
      spectrumThreshold, List.countP, List.countP.go]
  have h2 : (compute_composite_fiducial_score [[]] [1 / 10 ^ 10] ScoreFunc.all 0 0).2.countP
      (fun x => decide (spectrumThreshold < x)) = 0 := by
    rw [composite_score_spectrum_eq]
    norm_num [sortedAbsSpectrum, sort_asc, insert_asc, qabs,
      spectrumThreshold, List.countP, List.countP.go]
  rw [h1, h2]
  omega

/-- C3 (amended): `N` is the count of Gram eigenvalues whose absolute value
is *greater than or equal to* the fixed threshold `1e-10` (eigenvalues
strictly below it are treated as exactly zero), and whenever `N = 0` the
returned minor score is `+infinity`. -/
theorem c3_threshold_amended (fid_list : List Circuit) (eigs : List ℚ)
    (score_func : ScoreFunc) (l1_penalty op_penalty : ℚ) :
    (compute_composite_fiducial_score fid_list eigs score_func l1_penalty
      op_penalty).1.N =
      eigs.countP (fun x => decide (spectrumThreshold ≤ qabs x)) ∧
    ((compute_composite_fiducial_score fid_list eigs score_func l1_penalty
       op_penalty).1.N = 0 →
     (compute_composite_fiducial_score fid_list eigs score_func l1_penalty
       op_penalty).1.minor = XRat.inf) := by
  constructor
  · rw [composite_score_N_eq_gram_N, gram_N, sortedAbsSpectrum_length,
      sortedAbsSpectrum, sort_asc_countP, List.countP_map]
    have hsplit := countP_lt_add_countP_ge spectrumThreshold qabs eigs
    have hcomp : eigs.countP ((fun x => decide (x < spectrumThreshold)) ∘ qabs) =
        eigs.countP (fun x => decide (qabs x < spectrumThreshold)) := rfl
    rw [hcomp]
    omega
  · intro h0
    rw [composite_score_N_eq_gram_N] at h0
    rw [composite_score_minor_eq, if_pos h0]
    rfl

/-- Witness for the amended C3 at a rank-deficient spectrum: `N = 0` and the
minor score is `+infinity`. -/
theorem c3_threshold_amended_witness :
    ((compute_composite_fiducial_score [[]] [0] ScoreFunc.all 0 0).1.N =
      [(0 : ℚ)].countP (fun x => decide (spectrumThreshold ≤ qabs x)) ∧
     ((compute_composite_fiducial_score [[]] [0] ScoreFunc.all 0 0).1.N = 0 →
      (compute_composite_fiducial_score [[]] [0] ScoreFunc.all 0 0).1.minor =
        XRat.inf)) ∧
    (compute_composite_fiducial_score [[]] [0] ScoreFunc.all 0 0).1.minor =
      XRat.inf := by
  have h := c3_threshold_amended [[]] [0] ScoreFunc.all 0 0
  refine ⟨h, h.2 ?_⟩
  rw [h.1]
  norm_num [List.countP, List.countP.go, spectrumThreshold, qabs]

/-- C2: when the Gram spectrum has `N > 0` non-negligible eigenvalues, the
returned score is `CompositeScore (-N, minor, N)` with
`minor = |fid_list| · reduce(top-N eigenvalues, score_func) +
l1_penalty·|fid_list| + op_penalty·(total op count)`; and composite scores
with `major = -N` are ordered primarily by `-N` ascending (more nonzero
directions is better) and secondarily by `minor` ascending. -/
theorem c2_minor_formula_and_ordering (fid_list : List Circuit) (eigs : List ℚ)
    (score_func : ScoreFunc) (l1_penalty op_penalty : ℚ)
    (h : 0 < (compute_composite_fiducial_score fid_list eigs score_func
      l1_penalty op_penalty).1.N) :
    (compute_composite_fiducial_score fid_list eigs score_func l1_penalty
      op_penalty).1 =
      ⟨-((compute_composite_fiducial_score fid_list eigs score_func l1_penalty
           op_penalty).1.N : ℤ),
       XRat.fin ((fid_list.length : ℚ) *
           spec_minor_formula score_func (sortedAbsSpectrum eigs) (gram_N eigs) +
         l1_penalty * (fid_list.length : ℚ) +
         op_penalty * ((fid_list.map List.length).sum : ℚ)),
       (compute_composite_fiducial_score fid_list eigs score_func l1_penalty
         op_penalty).1.N⟩ ∧
    (∀ a b : CompositeScore, a.major = -(a.N : ℤ) → b.major = -(b.N : ℤ) →
      ((b.N < a.N → CompositeScore.blt a b = true) ∧
       (a.N = b.N →
         (CompositeScore.blt a b = true ↔ XRat.blt a.minor b.minor = true)))) := by
  constructor
  · have hne : ¬ gram_N eigs = 0 := by
      rw [composite_score_N_eq_gram_N] at h
      omega
    have hmin : (compute_composite_fiducial_score fid_list eigs score_func
        l1_penalty op_penalty).1.minor =
        XRat.fin ((fid_list.length : ℚ) *
            spec_minor_formula score_func (sortedAbsSpectrum eigs) (gram_N eigs) +
          l1_penalty * (fid_list.length : ℚ) +
          op_penalty * ((fid_list.map List.length).sum : ℚ)) := by
      rw [composite_score_minor_eq, if_neg hne, XRat.fin_add_fin, XRat.fin_add_fin]
    have heta : (compute_composite_fiducial_score fid_list eigs score_func
        l1_penalty op_penalty).1 =
        ⟨(compute_composite_fiducial_score fid_list eigs score_func l1_penalty
            op_penalty).1.major,
         (compute_composite_fiducial_score fid_list eigs score_func l1_penalty
            op_penalty).1.minor,
         (compute_composite_fiducial_score fid_list eigs score_func l1_penalty
            op_penalty).1.N⟩ := rfl
    rw [heta, hmin]
    rfl
  · intro a b ha hb
    constructor
    · intro hlt
      have hmaj : a.major < b.major := by
        rw [ha, hb]
        omega
      simp [CompositeScore.blt, hmaj]
    · intro heq
      have hmaj : a.major = b.major := by
        rw [ha, hb, heq]
      simp [CompositeScore.blt, hmaj]

/-- Witness for C2 at `fid_list = [[], [0]]`, spectrum `[1, 4]`,
`l1_penalty = 2`, `op_penalty = 3`. -/
theorem c2_minor_formula_and_ordering_witness :
    (compute_composite_fiducial_score [[], [0]] [1, 4] ScoreFunc.all 2 3).1 =
      ⟨-((compute_composite_fiducial_score [[], [0]] [1, 4] ScoreFunc.all 2 3).1.N : ℤ),
       XRat.fin ((([[], [0]] : List Circuit).length : ℚ) *
           spec_minor_formula ScoreFunc.all (sortedAbsSpectrum [1, 4]) (gram_N [1, 4]) +
         2 * (([[], [0]] : List Circuit).length : ℚ) +
         3 * ((([[], [0]] : List Circuit).map List.length).sum : ℚ)),
       (compute_composite_fiducial_score [[], [0]] [1, 4] ScoreFunc.all 2 3).1.N⟩ ∧
    (∀ a b : CompositeScore, a.major = -(a.N : ℤ) → b.major = -(b.N : ℤ) →
      ((b.N < a.N → CompositeScore.blt a b = true) ∧
       (a.N = b.N →
         (CompositeScore.blt a b = true ↔ XRat.blt a.minor b.minor = true)))) :=
  c2_minor_formula_and_ordering [[], [0]] [1, 4] ScoreFunc.all 2 3 (by
    rw [composite_score_N_eq_gram_N]
    norm_num [gram_N, sortedAbsSpectrum, sort_asc, insert_asc, qabs,
      spectrumThreshold, List.countP, List.countP.go])

/-- C6: the slack selector raises its configuration `ValueError` exactly
when it is not the case that exactly one of `fixed_slack`/`slack_frac` is
truthy (both supplied, neither supplied, or only zero values supplied), and
does so before any scoring: the result is the error for every eigensolver
oracle; otherwise it never raises this error. -/
theorem c6_slack_xor_config_error (fid_list : List Circuit) (fullEigs : List ℚ)
    (spectrumOf : List ℕ → List ℚ) (score_func : ScoreFunc) (max_iter : ℕ)
    (fixed_slack slack_frac : Option ℚ) (initial_weights : Option (List ℕ))
    (force_empty : Bool) (force_empty_score : ℚ) :
    (xor_args (truthyQ fixed_slack) (truthyQ slack_frac) = false →
      find_fiducials_integer_slack fid_list fullEigs spectrumOf score_func
        max_iter fixed_slack slack_frac initial_weights force_empty
        force_empty_score =
      .error "One and only one of fixed_slack or slack_frac should be specified!") ∧
    (xor_args (truthyQ fixed_slack) (truthyQ slack_frac) = true →
      ∃ r, find_fiducials_integer_slack fid_list fullEigs spectrumOf score_func
        max_iter fixed_slack slack_frac initial_weights force_empty
        force_empty_score = .ok r) := by
  constructor
  · intro h
    rw [find_fiducials_integer_slack, if_pos (by simp [h])]
  · intro h
    rw [find_fiducials_integer_slack, if_neg (by simp [h])]
    by_cases ht : test_fiducial_list fid_list fullEigs score_func 0 0 = false
    · rw [if_pos ht]
      exact ⟨none, rfl⟩
    · rw [if_neg ht]
      exact ⟨_, rfl⟩

/-- Witness for C6: with neither slack option supplied the configuration
error is raised. -/
theorem c6_slack_xor_config_error_witness :
    find_fiducials_integer_slack [] [] (fun _ => []) ScoreFunc.all 0 none none
      none false 0 =
    .error "One and only one of fixed_slack or slack_frac should be specified!" :=
  (c6_slack_xor_config_error [] [] (fun _ => []) ScoreFunc.all 0 none none
    none false 0).1 rfl

/-- C5: when the complete candidate list fails the informational-
completeness test, both selectors abort before any search and return the
no-solution sentinel: the slack selector returns `None` (for every
eigensolver oracle and search configuration), and GRASP returns `None` —
a triple of `None`s under `return_all` — for every restart oracle. -/
theorem c5_infeasible_universe_aborts :
    (∀ (fid_list : List Circuit) (fullEigs : List ℚ)
       (spectrumOf : List ℕ → List ℚ) (score_func : ScoreFunc) (max_iter : ℕ)
       (fixed_slack slack_frac : Option ℚ) (initial_weights : Option (List ℕ))
       (force_empty : Bool) (force_empty_score : ℚ),
       xor_args (truthyQ fixed_slack) (truthyQ slack_frac) = true →
       test_fiducial_list fid_list fullEigs score_func 0 0 = false →
       find_fiducials_integer_slack fid_list fullEigs spectrumOf score_func
         max_iter fixed_slack slack_frac initial_weights force_empty
         force_empty_score = .ok none) ∧
    (∀ (fids_list : List Circuit) (prep_or_meas : String) (iterations : ℕ)
       (score_func : ScoreFunc) (op_penalty l1_penalty : ℚ)
       (return_all force_empty : Bool) (fullEigs : List ℚ)
       (final_eigs_of : List Circuit → List ℚ)
       (run_iter : ℕ → ℕ → Except String (List Circuit × List Circuit)),
       (prep_or_meas = "prep" ∨ prep_or_meas = "meas") →
       test_fiducial_list fids_list fullEigs score_func 0 0 = false →
       find_fiducials_grasp fids_list prep_or_meas iterations score_func
         op_penalty l1_penalty return_all force_empty fullEigs final_eigs_of
         run_iter =
       .ok (if return_all then .triple none none none else .single none)) := by
  constructor
  · intro fid_list fullEigs spectrumOf score_func max_iter fixed_slack
      slack_frac initial_weights force_empty force_empty_score hxor htest
    rw [find_fiducials_integer_slack, if_neg (by simp [hxor]), if_pos htest]
  · intro fids_list prep_or_meas iterations score_func op_penalty l1_penalty
      return_all force_empty fullEigs final_eigs_of run_iter hrole htest
    rw [find_fiducials_grasp, if_neg (not_not_intro hrole), if_pos htest]

/-- Witness for C5: a single-candidate universe with a fully degenerate
Gram spectrum fails the test, and both selectors return their sentinel. -/
theorem c5_infeasible_universe_aborts_witness :
    find_fiducials_integer_slack [[]] [0] (fun _ => [0]) ScoreFunc.all 100
      (some 1) none none true (10 ^ 100) = .ok none ∧
    find_fiducials_grasp [[]] "prep" 1 ScoreFunc.all 0 0 false true [0]
      (fun _ => []) (fun _ _ => .ok ([], [])) = .ok (GraspResult.single none) := by
  have htest : test_fiducial_list [[]] [0] ScoreFunc.all 0 0 = false := by
    norm_num [test_fiducial_list, compute_composite_fiducial_score,
      sortedAbsSpectrum, sort_asc, insert_asc, qabs, spectrumThreshold,
      List.countP, List.countP.go]
  constructor
  · exact c5_infeasible_universe_aborts.1 [[]] [0] (fun _ => [0]) ScoreFunc.all
      100 (some 1) none none true (10 ^ 100) (by norm_num [xor_args, truthyQ])
      htest
  · exact c5_infeasible_universe_aborts.2 [[]] "prep" 1 ScoreFunc.all 0 0 false
      true [0] (fun _ => []) (fun _ _ => .ok ([], [])) (Or.inl rfl) htest

/-- C10: with `force_empty` set and a feasible candidate universe,
`_find_fiducials_grasp` raises the `ValueError` coming from
`fidsLens.index(0)` whenever `fids_list` contains no zero-length circuit,
for every restart oracle (the error precedes the restart loop). -/
theorem c10_force_empty_needs_empty_circuit (fids_list : List Circuit)
    (prep_or_meas : String) (iterations : ℕ) (score_func : ScoreFunc)
    (op_penalty l1_penalty : ℚ) (return_all : Bool) (fullEigs : List ℚ)
    (final_eigs_of : List Circuit → List ℚ)
    (run_iter : ℕ → ℕ → Except String (List Circuit × List Circuit))
    (hrole : prep_or_meas = "prep" ∨ prep_or_meas = "meas")
    (htest : test_fiducial_list fids_list fullEigs score_func 0 0 = true)
    (hnoempty : ∀ c ∈ fids_list, c ≠ ([] : Circuit)) :
    find_fiducials_grasp fids_list prep_or_meas iterations score_func
      op_penalty l1_penalty return_all true fullEigs final_eigs_of run_iter =
    .error "ValueError: 0 is not in list" := by
  have hidx : ((fids_list.map List.length).indexOf? 0) = none := by
    rw [List.indexOf?, List.findIdx?_eq_none_iff]
    intro x hx
    simp only [List.mem_map] at hx
    obtain ⟨c, hc, rfl⟩ := hx
    have hne := hnoempty c hc
    simp only [beq_eq_false_iff_ne, ne_eq, List.length_eq_zero]
    exact hne
  rw [find_fiducials_grasp, if_neg (not_not_intro hrole),
    if_neg (by simp [htest]), if_pos ⟨rfl, by rw [hidx]; rfl⟩]

/-- Witness for C10: a feasible single-circuit universe without the empty
circuit raises the `ValueError`. -/
theorem c10_force_empty_needs_empty_circuit_witness :
    find_fiducials_grasp [[7]] "meas" 3 ScoreFunc.all 0 0 false true [5]
      (fun _ => []) (fun _ _ => .ok ([], [])) =
    .error "ValueError: 0 is not in list" := by
  apply c10_force_empty_needs_empty_circuit [[7]] "meas" 3 ScoreFunc.all 0 0
    false [5] (fun _ => []) (fun _ _ => .ok ([], [])) (Or.inr rfl)
  · norm_num [test_fiducial_list, compute_composite_fiducial_score,
      sortedAbsSpectrum, sort_asc, insert_asc, qabs, spectrumThreshold,
      List.countP, List.countP.go]
  · intro c hc
    simp only [List.mem_singleton] at hc
    subst hc
    simp

theorem grasp_try_loop_all_fail {α : Type} (f : ℕ → Except String α)
    (es : ℕ → String) :
    ∀ fuel failCount, failCount + fuel = 10 → 0 < fuel →
    (∀ k, k < 10 → f k = .error (es k)) →
    grasp_try_loop f failCount fuel = .error (es 9) := by
  intro fuel
  induction fuel with
  | zero =>
    intro fc h h0 _
    omega
  | succ n ih =>
    intro fc hsum _ hf
    have hffc := hf fc (by omega)
    simp only [grasp_try_loop, hffc]
    by_cases h9 : fc + 1 = 10
    · rw [if_pos h9, show fc = 9 from by omega]
    · rw [if_neg h9]
      exact ih (fc + 1) (by omega) (by omega) hf

theorem grasp_try_loop_success {α : Type} (f : ℕ → Except String α)
    (es : ℕ → String) (k : ℕ) (a : α) :
    ∀ fuel failCount, failCount + fuel = 10 → failCount ≤ k → k < 10 →
    (∀ j, j < k → f j = .error (es j)) → f k = .ok a →
    grasp_try_loop f failCount fuel = .ok a := by
  intro fuel
  induction fuel with
  | zero =>
    intro fc h1 h2 h3 _ _
    omega
  | succ n ih =>
    intro fc hsum hle hk hferr hfok
    by_cases hfc : fc = k
    · subst hfc
      simp only [grasp_try_loop, hfok]
    · have hlt : fc < k := by omega
      simp only [grasp_try_loop, hferr fc hlt]
      rw [if_neg (by omega)]
      exact ih (fc + 1) (by omega) (by omega) hk hferr hfok

/-- C8: one GRASP restart's construction/local-search step is retried on
exceptions, for at most 10 attempts in total; a success before exhaustion is
returned, and if all 10 attempts raise, the underlying (10th) exception is
propagated — through the retry loop and, from the first restart, out of
`_find_fiducials_grasp` to the caller. -/
theorem c8_grasp_retry_semantics {α : Type} (f : ℕ → Except String α)
    (es : ℕ → String) (k : ℕ) (a : α) :
    ((∀ j, j < 10 → f j = .error (es j)) → grasp_retry f = .error (es 9)) ∧
    (k < 10 → (∀ j, j < k → f j = .error (es j)) → f k = .ok a →
      grasp_retry f = .ok a) ∧
    (∀ (fids_list : List Circuit) (prep_or_meas : String) (iterations : ℕ)
       (score_func : ScoreFunc) (op_penalty l1_penalty : ℚ) (return_all : Bool)
       (fullEigs : List ℚ) (final_eigs_of : List Circuit → List ℚ)
       (run_iter : ℕ → ℕ → Except String (List Circuit × List Circuit)),
       (prep_or_meas = "prep" ∨ prep_or_meas = "meas") →
       test_fiducial_list fids_list fullEigs score_func 0 0 = true →
       (∀ j, j < 10 → run_iter 0 j = .error (es j)) →
       find_fiducials_grasp fids_list prep_or_meas (iterations + 1) score_func
         op_penalty l1_penalty return_all false fullEigs final_eigs_of
         run_iter = .error (es 9)) := by
  refine ⟨?_, ?_, ?_⟩
  · intro hf
    exact grasp_try_loop_all_fail f es 10 0 rfl (by omega) hf
  · intro hk hferr hfok
    exact grasp_try_loop_success f es k a 10 0 rfl (by omega) hk hferr hfok
  · intro fids_list prep_or_meas iterations score_func op_penalty l1_penalty
      return_all fullEigs final_eigs_of run_iter hrole htest herr
    rw [find_fiducials_grasp, if_neg (not_not_intro hrole),
      if_neg (by simp [htest]), if_neg (by simp)]
    have hretry : grasp_retry (run_iter 0) = .error (es 9) :=
      grasp_try_loop_all_fail (run_iter 0) es 10 0 rfl (by omega) herr
    have hloop : grasp_loop run_iter (iterations + 1) = .error (es 9) := by
      rw [grasp_loop, grasp_loop_aux, hretry]
    rw [hloop]

/-- Witness for C8: an always-failing step propagates the 10th failure, a
first-attempt success is returned, and an always-failing first restart
aborts the full GRASP call with the underlying error. -/
theorem c8_grasp_retry_semantics_witness :
    grasp_retry (fun _ => (.error "singular matrix" : Except String ℕ)) =
      .error "singular matrix" ∧
    grasp_retry (fun k => if k = 0 then (.ok 42 : Except String ℕ)
      else .error "singular matrix") = .ok 42 ∧
    find_fiducials_grasp [[]] "prep" 1 ScoreFunc.all 0 0 false false [5]
      (fun _ => []) (fun _ _ => .error "singular matrix") =
      .error "singular matrix" := by
  have htest : test_fiducial_list [[]] [5] ScoreFunc.all 0 0 = true := by
    norm_num [test_fiducial_list, compute_composite_fiducial_score,
      sortedAbsSpectrum, sort_asc, insert_asc, qabs, spectrumThreshold,
      List.countP, List.countP.go]
  refine ⟨?_, ?_, ?_⟩
  · exact (c8_grasp_retry_semantics (fun _ => (.error "singular matrix" :
      Except String ℕ)) (fun _ => "singular matrix") 0 0).1 (fun _ _ => rfl)
  · exact (c8_grasp_retry_semantics (fun k => if k = 0 then
      (.ok 42 : Except String ℕ) else .error "singular matrix")
      (fun _ => "singular matrix") 0 42).2.1 (by omega)
      (fun j hj => absurd hj (by omega)) rfl
  · exact (c8_grasp_retry_semantics (fun _ => (.error "singular matrix" :
      Except String ℕ)) (fun _ => "singular matrix") 0 0).2.2 [[]] "prep" 0
      ScoreFunc.all 0 0 false [5] (fun _ => [])
      (fun _ _ => .error "singular matrix") (Or.inl rfl) htest (fun _ _ => rfl)

theorem XRat.add_ne_nan (x y : XRat) (hx : x ≠ XRat.nan) (hy : y ≠ XRat.nan) :
    XRat.add x y ≠ XRat.nan := by
  cases x <;> cases y <;> simp_all [XRat.add]

theorem qinv_ne_nan (q : ℚ) : qinv q ≠ XRat.nan := by
  rw [qinv]
  split <;> simp

theorem list_score_ne_nan (l : List ℚ) (sf : ScoreFunc) :
    list_score l sf ≠ XRat.nan := by
  cases sf with
  | worst => exact qinv_ne_nan _
  | all =>
    induction l with
    | nil => simp [list_score]
    | cons x xs ih =>
      simp only [list_score, List.map_cons, List.foldr_cons]
      exact XRat.add_ne_nan _ _ (qinv_ne_nan x) ih

theorem slack_score_finite_of_pos_sum (force_empty : Bool)
    (force_empty_score : ℚ) (score_func : ScoreFunc)
    (spectrumOf : List ℕ → List ℚ) (wts : List ℕ) (h : 0 < wts.sum) :
    (slack_compute_score force_empty force_empty_score score_func spectrumOf
      wts).isFinite = true := by
  rw [slack_compute_score]
  by_cases hc : force_empty = true ∧
      (wts.take 1).countP (fun x => decide (x ≠ 0)) ≠ 1
  · rw [if_pos hc]
    rfl
  · rw [if_neg hc]
    cases hls : list_score (spectrumOf wts) score_func with
    | nan => exact absurd hls (list_score_ne_nan _ _)
    | inf =>
      have hmul : XRat.mulNat wts.sum XRat.inf = XRat.inf := by
        rw [XRat.mulNat, if_neg (by omega)]
      rw [hmul, if_pos (Or.inr rfl)]
      rfl
    | fin q =>
      by_cases hle : (XRat.mulNat wts.sum (XRat.fin q)).leZero = true ∨
          XRat.mulNat wts.sum (XRat.fin q) = XRat.inf
      · rw [if_pos hle]
        rfl
      · rw [if_neg hle]
        rfl

/-- Counterexample for C9: at the all-zero weight vector with `force_empty`
unset and a fully degenerate subset spectrum, the objective computes
`0 * inf = nan`, which the clamp does not catch — the returned value is not
finite. -/
theorem c9_slack_objective_counterexample :
    (slack_compute_score false (10 ^ 100) ScoreFunc.all (fun _ => [0])
      [0]).isFinite = false := by
  have hls : list_score [(0 : ℚ)] ScoreFunc.all = XRat.inf := by
    norm_num [list_score, qinv, XRat.add]
  have h : slack_compute_score false (10 ^ 100) ScoreFunc.all (fun _ => [0])
      [0] = XRat.nan := by
    rw [slack_compute_score, if_neg (by simp)]
    have hm : XRat.mulNat (List.sum [0])
        (list_score ((fun _ => [(0 : ℚ)]) [0]) ScoreFunc.all) = XRat.nan := by
      simp only [hls]
      rfl
    rw [hm, if_neg (by simp [XRat.leZero])]
  rw [h]
  rfl

/-- C9 (amended): the slack objective returns the finite sentinel
`force_empty_score` on the `force_empty` branch and the finite sentinel
`1e10` when the eigenvalue-based score is non-positive or infinite, and its
value is finite for every weight vector that selects at least one circuit
(in particular always when `force_empty` is set); the sole exception, forced
by the counterexample, is the all-zero weight vector with `force_empty`
unset and an infinite raw score, where `0 * inf` yields `nan`.  The public
scorer, by contrast, returns `+infinity` for rank-deficient lists. -/
theorem c9_slack_objective_amended (force_empty : Bool)
    (force_empty_score : ℚ) (score_func : ScoreFunc)
    (spectrumOf : List ℕ → List ℚ) (wts : List ℕ) :
    (force_empty = true →
      (slack_compute_score force_empty force_empty_score score_func spectrumOf
        wts).isFinite = true) ∧
    (0 < wts.sum →
      (slack_compute_score force_empty force_empty_score score_func spectrumOf
        wts).isFinite = true) ∧
    (force_empty = true → (wts.take 1).countP (fun x => decide (x ≠ 0)) ≠ 1 →
      slack_compute_score force_empty force_empty_score score_func spectrumOf
        wts = .fin force_empty_score) ∧
    (¬ (force_empty = true ∧ (wts.take 1).countP (fun x => decide (x ≠ 0)) ≠ 1) →
      ((XRat.mulNat wts.sum (list_score (spectrumOf wts) score_func)).leZero =
          true ∨
        XRat.mulNat wts.sum (list_score (spectrumOf wts) score_func) =
          XRat.inf) →
      slack_compute_score force_empty force_empty_score score_func spectrumOf
        wts = .fin ((10 : ℚ) ^ 10)) ∧
    (∀ (fid_list : List Circuit) (eigs : List ℚ) (l1_penalty op_penalty : ℚ),
      (compute_composite_fiducial_score fid_list eigs score_func l1_penalty
        op_penalty).1.N = 0 →
      (compute_composite_fiducial_score fid_list eigs score_func l1_penalty
        op_penalty).1.minor = XRat.inf) := by
  refine ⟨?_, ?_, ?_, ?_, ?_⟩
  · intro hfe
    by_cases hc : (wts.take 1).countP (fun x => decide (x ≠ 0)) = 1
    · have hsum : 0 < wts.sum := by
        cases wts with
        | nil =>
          simp at hc
        | cons w ws =>
          by_cases hw : w = 0
          · subst hw
            simp [List.countP_cons] at hc
          · have hw0 : 0 < w := Nat.pos_of_ne_zero hw
            simp only [List.sum_cons]
            omega
      exact slack_score_finite_of_pos_sum _ _ _ _ _ hsum
    · rw [slack_compute_score, if_pos ⟨hfe, hc⟩]
      rfl
  · exact slack_score_finite_of_pos_sum _ _ _ _ _
  · intro hfe hc
    rw [slack_compute_score, if_pos ⟨hfe, hc⟩]
  · intro hc hraw
    rw [slack_compute_score, if_neg hc, if_pos hraw]
  · intro fid_list eigs l1_penalty op_penalty h0
    rw [composite_score_N_eq_gram_N] at h0
    rw [composite_score_minor_eq, if_pos h0]
    rfl

/-- Witness for the amended C9 at `wts = [1]` (finiteness), the force-empty
branch at `wts = [0]`, and the `1e10` clamp at a degenerate spectrum. -/
theorem c9_slack_objective_amended_witness :
    (slack_compute_score true (10 ^ 100) ScoreFunc.all (fun _ => [1])
      [1]).isFinite = true ∧
    slack_compute_score true (10 ^ 100) ScoreFunc.all (fun _ => [1]) [0] =
      .fin (10 ^ 100) ∧
    slack_compute_score false (10 ^ 100) ScoreFunc.all (fun _ => [0]) [1] =
      .fin ((10 : ℚ) ^ 10) := by
  refine ⟨(c9_slack_objective_amended true (10 ^ 100) ScoreFunc.all
      (fun _ => [1]) [1]).1 rfl, ?_, ?_⟩
  · exact (c9_slack_objective_amended true (10 ^ 100) ScoreFunc.all
      (fun _ => [1]) [0]).2.2.1 rfl (by norm_num [List.countP, List.countP.go])
  · apply (c9_slack_objective_amended false (10 ^ 100) ScoreFunc.all
      (fun _ => [0]) [1]).2.2.2.1 (by simp)
    right
    norm_num [list_score, qinv, XRat.add, XRat.mulNat]

theorem slack_scan_fold_invariant (cs : List ℕ → XRat) (startW : List ℕ)
    (nFids : ℕ) (s0 : SlackState) :
    ∀ (l : List ℕ) (acc : SlackState × Bool × List MoveRecord),
    (∀ i ∈ l, i < nFids) →
    ((∀ m ∈ acc.2.2,
        m.nScore.bleq m.prevScore = true ∧
        (m.nL1 < m.prevL1 ∨ m.mode = false) ∧
        m.mode = s0.lessWeightOnly ∧
        ∃ i, i < nFids ∧ m.neighbor = toggle_weight startW i) ∧
      acc.1.lessWeightOnly = s0.lessWeightOnly ∧
      acc.1.weights = (acc.2.2.map MoveRecord.neighbor).getLastD s0.weights) →
    ((∀ m ∈ (l.foldl (scan_step cs startW) acc).2.2,
        m.nScore.bleq m.prevScore = true ∧
        (m.nL1 < m.prevL1 ∨ m.mode = false) ∧
        m.mode = s0.lessWeightOnly ∧
        ∃ i, i < nFids ∧ m.neighbor = toggle_weight startW i) ∧
      (l.foldl (scan_step cs startW) acc).1.lessWeightOnly = s0.lessWeightOnly ∧
      (l.foldl (scan_step cs startW) acc).1.weights =
        ((l.foldl (scan_step cs startW) acc).2.2.map
          MoveRecord.neighbor).getLastD s0.weights) := by
  intro l
  induction l with
  | nil =>
    intro acc _ hP
    exact hP
  | cons i is ih =>
    intro acc hl hP
    rw [List.foldl_cons]
    refine ih _ (fun j hj => hl j (List.mem_cons_of_mem _ hj)) ?_
    have hi : i < nFids := hl i (List.mem_cons_self _ _)
    by_cases hcond : ((cs (toggle_weight startW i)).bleq acc.1.score &&
        (decide ((toggle_weight startW i).sum < acc.1.L1) ||
          !acc.1.lessWeightOnly)) = true
    · have hstep : scan_step cs startW acc i =
          (⟨toggle_weight startW i, cs (toggle_weight startW i),
            (toggle_weight startW i).sum, acc.1.lessWeightOnly⟩, true,
            acc.2.2 ++ [⟨toggle_weight startW i, cs (toggle_weight startW i),
              (toggle_weight startW i).sum, acc.1.score, acc.1.L1,
              acc.1.lessWeightOnly⟩]) := by
        simp only [scan_step]
        rw [if_pos hcond]
      rw [hstep]
      rw [Bool.and_eq_true, Bool.or_eq_true, decide_eq_true_eq,
        Bool.not_eq_true'] at hcond
      refine ⟨?_, hP.2.1, ?_⟩
      · intro m hm
        rcases List.mem_append.mp hm with hold | hnew
        · exact hP.1 m hold
        · rcases List.mem_singleton.mp hnew with rfl
          refine ⟨hcond.1, ?_, hP.2.1, ⟨i, hi, rfl⟩⟩
          rcases hcond.2 with hlt | hmode
          · exact Or.inl hlt
          · exact Or.inr (hP.2.1 ▸ hmode)
      · rw [List.map_append, List.map_cons, List.map_nil,
          List.getLastD_concat]
    · have hstep : scan_step cs startW acc i = (acc.1, acc.2.1, acc.2.2) := by
        simp only [scan_step]
        rw [if_neg hcond]
      rw [hstep]
      exact hP

theorem slack_relaxed_fold_invariant (cs : List ℕ → XRat) (startW : List ℕ)
    (nFids : ℕ) (s0 : SlackState) :
    ∀ (l : List ℕ) (acc : SlackState × Bool × List MoveRecord),
    (∀ i ∈ l, i < nFids) →
    ((∀ m ∈ acc.2.2,
        m.nL1 < m.prevL1 ∧ m.nScore.blt m.prevScore = true ∧
        ∃ i, i < nFids ∧ m.neighbor = toggle_weight startW i) ∧
      acc.1.weights = (acc.2.2.map MoveRecord.neighbor).getLastD s0.weights) →
    ((∀ m ∈ (l.foldl (relaxed_step cs startW) acc).2.2,
        m.nL1 < m.prevL1 ∧ m.nScore.blt m.prevScore = true ∧
        ∃ i, i < nFids ∧ m.neighbor = toggle_weight startW i) ∧
      (l.foldl (relaxed_step cs startW) acc).1.weights =
        ((l.foldl (relaxed_step cs startW) acc).2.2.map
          MoveRecord.neighbor).getLastD s0.weights) := by
  intro l
  induction l with
  | nil =>
    intro acc _ hP
    exact hP
  | cons i is ih =>
    intro acc hl hP
    rw [List.foldl_cons]
    refine ih _ (fun j hj => hl j (List.mem_cons_of_mem _ hj)) ?_
    have hi : i < nFids := hl i (List.mem_cons_self _ _)
    by_cases hcond : (decide ((toggle_weight startW i).sum < acc.1.L1) &&
        (cs (toggle_weight startW i)).blt acc.1.score) = true
    · have hstep : relaxed_step cs startW acc i =
          (⟨toggle_weight startW i, cs (toggle_weight startW i),
            (toggle_weight startW i).sum, acc.1.lessWeightOnly⟩, true,
            acc.2.2 ++ [⟨toggle_weight startW i, cs (toggle_weight startW i),
              (toggle_weight startW i).sum, acc.1.score, acc.1.L1,
              acc.1.lessWeightOnly⟩]) := by
        simp only [relaxed_step]
        rw [if_pos hcond]
      rw [hstep]
      rw [Bool.and_eq_true, decide_eq_true_eq] at hcond
      refine ⟨?_, ?_⟩
      · intro m hm
        rcases List.mem_append.mp hm with hold | hnew
        · exact hP.1 m hold
        · rcases List.mem_singleton.mp hnew with rfl
          exact ⟨hcond.1, hcond.2, ⟨i, hi, rfl⟩⟩
      · rw [List.map_append, List.map_cons, List.map_nil,
          List.getLastD_concat]
    · have hstep : relaxed_step cs startW acc i = acc := by
        simp only [relaxed_step]
        rw [if_neg hcond]
      rw [hstep]
      exact hP

/-- C7 (amended): in each hill-climbing round of the slack selector, every
accepted move of the main scan is to a neighbor (one toggled coordinate of
the round's start vector) whose score is no worse (IEEE `<=`) than the
current score, and — only when in less-weight-only mode — with strictly
fewer included circuits; outside less-weight-only mode the circuit count is
unconstrained (a neighbor with more circuits can be accepted).  In the
relaxed re-scan every accepted move has strictly fewer included circuits
and score strictly below the relaxed current score.  The final weight
vector is the last accepted neighbor (or the start state's vector when no
move was accepted). -/
theorem c7_scan_acceptance_amended (cs : List ℕ → XRat) (nFids : ℕ)
    (startW : List ℕ) (s0 : SlackState) :
    (∀ m ∈ (slack_scan cs nFids startW s0).2.2,
      m.nScore.bleq m.prevScore = true ∧
      (m.nL1 < m.prevL1 ∨ m.mode = false) ∧
      m.mode = s0.lessWeightOnly ∧
      ∃ i, i < nFids ∧ m.neighbor = toggle_weight startW i) ∧
    ((slack_scan cs nFids startW s0).1.weights =
      ((slack_scan cs nFids startW s0).2.2.map
        MoveRecord.neighbor).getLastD s0.weights) ∧
    (∀ m ∈ (slack_scan_relaxed cs nFids startW s0).2.2,
      m.nL1 < m.prevL1 ∧ m.nScore.blt m.prevScore = true ∧
      ∃ i, i < nFids ∧ m.neighbor = toggle_weight startW i) ∧
    ((slack_scan_relaxed cs nFids startW s0).1.weights =
      ((slack_scan_relaxed cs nFids startW s0).2.2.map
        MoveRecord.neighbor).getLastD s0.weights) := by
  have h1 := slack_scan_fold_invariant cs startW nFids s0 (List.range nFids)
    (s0, false, []) (fun i hi => List.mem_range.mp hi)
    ⟨fun m hm => absurd hm (List.not_mem_nil m), rfl, rfl⟩
  have h2 := slack_relaxed_fold_invariant cs startW nFids s0
    (List.range nFids) (s0, false, []) (fun i hi => List.mem_range.mp hi)
    ⟨fun m hm => absurd hm (List.not_mem_nil m), rfl⟩
  rw [slack_scan, slack_scan_relaxed]
  exact ⟨h1.1, h1.2.2, h2.1, h2.2⟩

/-- Counterexample for C7: a main scan outside less-weight-only mode (the
mode used with supplied initial weights, where the source comment says
"Initially allow adding to weight") accepts a neighbor with MORE included
circuits than the current vector: starting from weight vector `[1, 0]`
(1 circuit), the scan moves to `[1, 1]` (2 circuits). -/
theorem c7_scan_acceptance_counterexample :
    ((slack_scan (slack_compute_score false (10 ^ 100) ScoreFunc.all
        (fun w => [(w.sum : ℚ)])) 2 [1, 0]
        ⟨[1, 0], XRat.fin 1, 1, false⟩).2.2.map
      (fun m => (m.nL1, m.prevL1))) = [(2, 1)] ∧ (1 : ℕ) < 2 := by
  refine ⟨?_, by omega⟩
  have h00 : slack_compute_score false (10 ^ 100) ScoreFunc.all
      (fun w => [(w.sum : ℚ)]) [0, 0] = XRat.nan := by
    rw [slack_compute_score, if_neg (by simp)]
    have hm : XRat.mulNat (List.sum [0, 0])
        (list_score [((([0, 0] : List ℕ).sum : ℕ) : ℚ)] ScoreFunc.all) =
        XRat.nan := by
      norm_num [list_score, qinv, XRat.add, XRat.mulNat]
    rw [hm, if_neg (by simp [XRat.leZero])]
  have h11 : slack_compute_score false (10 ^ 100) ScoreFunc.all
      (fun w => [(w.sum : ℚ)]) [1, 1] = XRat.fin 1 := by
    rw [slack_compute_score, if_neg (by simp)]
    have hm : XRat.mulNat (List.sum [1, 1])
        (list_score [((([1, 1] : List ℕ).sum : ℕ) : ℚ)] ScoreFunc.all) =
        XRat.fin 1 := by
      norm_num [list_score, qinv, XRat.add, XRat.mulNat]
    rw [hm, if_neg]
    rintro (hle | hinf)
    · norm_num [XRat.leZero] at hle
    · exact XRat.noConfusion hinf
  rw [slack_scan, show List.range 2 = [0, 1] from rfl, List.foldl_cons]
  have hstep0 : scan_step (slack_compute_score false (10 ^ 100) ScoreFunc.all
      (fun w => [(w.sum : ℚ)])) [1, 0]
      (⟨[1, 0], XRat.fin 1, 1, false⟩, false, []) 0 =
      (⟨[1, 0], XRat.fin 1, 1, false⟩, false, []) := by
    simp only [scan_step, show toggle_weight [1, 0] 0 = [0, 0] from rfl, h00]
    rw [if_neg]
    simp [XRat.bleq]
  rw [hstep0, List.foldl_cons]
  have hstep1 : scan_step (slack_compute_score false (10 ^ 100) ScoreFunc.all
      (fun w => [(w.sum : ℚ)])) [1, 0]
      (⟨[1, 0], XRat.fin 1, 1, false⟩, false, []) 1 =
      (⟨[1, 1], XRat.fin 1, 2, false⟩, true,
        [⟨[1, 1], XRat.fin 1, 2, XRat.fin 1, 1, false⟩]) := by
    simp only [scan_step, show toggle_weight [1, 0] 1 = [1, 1] from rfl, h11]
    rw [if_pos]
    · rfl
    · simp [XRat.bleq]
  rw [hstep1]
  rfl

/-- Witness for the amended C7 at the counterexample's concrete scan. -/
theorem c7_scan_acceptance_amended_witness :
    (∀ m ∈ (slack_scan (slack_compute_score false (10 ^ 100) ScoreFunc.all
        (fun w => [(w.sum : ℚ)])) 2 [1, 0]
        ⟨[1, 0], XRat.fin 1, 1, false⟩).2.2,
      m.nScore.bleq m.prevScore = true ∧
      (m.nL1 < m.prevL1 ∨ m.mode = false) ∧
      m.mode = (⟨[1, 0], XRat.fin 1, 1, false⟩ : SlackState).lessWeightOnly ∧
      ∃ i, i < 2 ∧ m.neighbor = toggle_weight [1, 0] i) ∧
    ((slack_scan (slack_compute_score false (10 ^ 100) ScoreFunc.all
        (fun w => [(w.sum : ℚ)])) 2 [1, 0]
        ⟨[1, 0], XRat.fin 1, 1, false⟩).1.weights =
      ((slack_scan (slack_compute_score false (10 ^ 100) ScoreFunc.all
          (fun w => [(w.sum : ℚ)])) 2 [1, 0]
          ⟨[1, 0], XRat.fin 1, 1, false⟩).2.2.map
        MoveRecord.neighbor).getLastD
        (⟨[1, 0], XRat.fin 1, 1, false⟩ : SlackState).weights) ∧
    (∀ m ∈ (slack_scan_relaxed (slack_compute_score false (10 ^ 100)
        ScoreFunc.all (fun w => [(w.sum : ℚ)])) 2 [1, 0]
        ⟨[1, 0], XRat.fin 1, 1, false⟩).2.2,
      m.nL1 < m.prevL1 ∧ m.nScore.blt m.prevScore = true ∧
      ∃ i, i < 2 ∧ m.neighbor = toggle_weight [1, 0] i) ∧
    ((slack_scan_relaxed (slack_compute_score false (10 ^ 100) ScoreFunc.all
        (fun w => [(w.sum : ℚ)])) 2 [1, 0]
        ⟨[1, 0], XRat.fin 1, 1, false⟩).1.weights =
      ((slack_scan_relaxed (slack_compute_score false (10 ^ 100) ScoreFunc.all
          (fun w => [(w.sum : ℚ)])) 2 [1, 0]
          ⟨[1, 0], XRat.fin 1, 1, false⟩).2.2.map
        MoveRecord.neighbor).getLastD
        (⟨[1, 0], XRat.fin 1, 1, false⟩ : SlackState).weights) :=
  c7_scan_acceptance_amended
    (slack_compute_score false (10 ^ 100) ScoreFunc.all
      (fun w => [(w.sum : ℚ)])) 2 [1, 0] ⟨[1, 0], XRat.fin 1, 1, false⟩

theorem frob_dist_sq_comm (a b : List ℚ) : frob_dist_sq a b = frob_dist_sq b a := by
  induction a generalizing b with
  | nil => cases b <;> rfl
  | cons x xs ih =>
    cases b with
    | nil => rfl
    | cons y ys =>
      simp only [frob_dist_sq, List.zipWith_cons_cons, List.map_cons,
        List.sum_cons] at ih ⊢
      rw [ih]
      ring_nf

theorem is_close_mx_comm (a b : List ℚ) (t : ℚ) :
    is_close_mx a b t = is_close_mx b a t := by
  rw [is_close_mx, is_close_mx, frob_dist_sq_comm]

theorem dedup_keys_subset (look : Circuit → List ℚ) (t : ℚ) :
    ∀ (n : ℕ) (l : List Circuit), l.length ≤ n →
    ∀ c ∈ dedup_keys look t l, c ∈ l := by
  intro n
  induction n with
  | zero =>
    intro l hl c hc
    cases l with
    | nil => simp [dedup_keys] at hc
    | cons a rest => simp at hl
  | succ n ih =>
    intro l hl c hc
    cases l with
    | nil => simp [dedup_keys] at hc
    | cons a rest =>
      simp only [dedup_keys, List.mem_cons] at hc
      rcases hc with rfl | hc2
      · exact List.mem_cons_self _ _
      · have hlen : (rest.filter
            (fun c2 => ¬ is_close_mx (look c2) (look a) t = true)).length ≤ n := by
          have h1 := List.length_filter_le
            (fun c2 => ¬ is_close_mx (look c2) (look a) t = true) rest
          simp only [List.length_cons] at hl
          omega
        have hcf := ih _ hlen c hc2
        exact List.mem_cons_of_mem _ (List.mem_of_mem_filter hcf)

theorem dedup_keys_pairwise (look : Circuit → List ℚ) (t : ℚ) :
    ∀ (n : ℕ) (l : List Circuit), l.length ≤ n →
    (dedup_keys look t l).Pairwise
      (fun a b => is_close_mx (look b) (look a) t = false) := by
  intro n
  induction n with
  | zero =>
    intro l hl
    cases l with
    | nil => simp [dedup_keys]
    | cons a rest => simp at hl
  | succ n ih =>
    intro l hl
    cases l with
    | nil => simp [dedup_keys]
    | cons a rest =>
      simp only [dedup_keys]
      have hlen : (rest.filter
          (fun c2 => ¬ is_close_mx (look c2) (look a) t = true)).length ≤ n := by
        have h1 := List.length_filter_le
          (fun c2 => ¬ is_close_mx (look c2) (look a) t = true) rest
        simp only [List.length_cons] at hl
        omega
      refine List.Pairwise.cons ?_ (ih _ hlen)
      intro b hb
      have hbf := dedup_keys_subset look t n _ hlen b hb
      have := (List.mem_filter.mp hbf).2
      simpa using this

theorem dedup_keys_cover (look : Circuit → List ℚ) (t : ℚ) :
    ∀ (n : ℕ) (l : List Circuit), l.length ≤ n →
    ∀ c ∈ l, c ∈ dedup_keys look t l ∨
      ∃ c2 ∈ dedup_keys look t l, is_close_mx (look c) (look c2) t = true := by
  intro n
  induction n with
  | zero =>
    intro l hl c hc
    cases l with
    | nil => cases hc
    | cons a rest => simp at hl
  | succ n ih =>
    intro l hl c hc
    cases l with
    | nil => cases hc
    | cons a rest =>
      simp only [dedup_keys]
      rcases List.mem_cons.mp hc with rfl | hc2
      · exact Or.inl (List.mem_cons_self _ _)
      · by_cases hclose : is_close_mx (look c) (look a) t = true
        · exact Or.inr ⟨a, List.mem_cons_self _ _, hclose⟩
        · have hlen : (rest.filter
              (fun c2 => ¬ is_close_mx (look c2) (look a) t = true)).length ≤ n := by
            have h1 := List.length_filter_le
              (fun c2 => ¬ is_close_mx (look c2) (look a) t = true) rest
            simp only [List.length_cons] at hl
            omega
          have hcf : c ∈ rest.filter
              (fun c2 => ¬ is_close_mx (look c2) (look a) t = true) := by
            refine List.mem_filter.mpr ⟨hc2, ?_⟩
            simpa using hclose
          rcases ih _ hlen c hcf with hin | ⟨c2, hc2m, hcl⟩
          · exact Or.inl (List.mem_cons_of_mem _ hin)
          · exact Or.inr ⟨c2, List.mem_cons_of_mem _ hc2m, hcl⟩

theorem mem_cache_key_unique (cache : List (Circuit × List ℚ)) (c : Circuit)
    (m m2 : List ℚ) (hnd : (cache.map Prod.fst).Nodup)
    (h1 : (c, m) ∈ cache) (h2 : (c, m2) ∈ cache) : m = m2 := by
  induction cache with
  | nil => cases h1
  | cons kv rest ih =>
    rw [List.map_cons] at hnd
    have hnotin := (List.nodup_cons.mp hnd).1
    have hndrest := (List.nodup_cons.mp hnd).2
    rcases List.mem_cons.mp h1 with he1 | hm1 <;>
      rcases List.mem_cons.mp h2 with he2 | hm2
    · exact congrArg Prod.snd (he1.trans he2.symm)
    · exfalso
      have hk : kv.1 = c := by rw [← he1]
      have hcm : c ∈ rest.map Prod.fst := List.mem_map_of_mem Prod.fst hm2
      exact hnotin (hk ▸ hcm)
    · exfalso
      have hk : kv.1 = c := by rw [← he2]
      have hcm : c ∈ rest.map Prod.fst := List.mem_map_of_mem Prod.fst hm1
      exact hnotin (hk ▸ hcm)
    · exact ih hndrest hm1 hm2

theorem lookup_mx_eq (cache : List (Circuit × List ℚ)) (c : Circuit)
    (m : List ℚ) (hnd : (cache.map Prod.fst).Nodup) (hmem : (c, m) ∈ cache) :
    lookup_mx cache c = m := by
  induction cache with
  | nil => cases hmem
  | cons kv rest ih =>
    rw [List.map_cons] at hnd
    have hnotin := (List.nodup_cons.mp hnd).1
    have hndrest := (List.nodup_cons.mp hnd).2
    rcases List.mem_cons.mp hmem with heq | hmem2
    · rw [lookup_mx, List.find?_cons_of_pos _ (by rw [← heq]; simp)]
      rw [← heq]
      rfl
    · have hk : ¬ kv.1 = c := by
        intro he
        have hcm : c ∈ rest.map Prod.fst := List.mem_map_of_mem Prod.fst hmem2
        exact hnotin (he ▸ hcm)
      rw [lookup_mx, List.find?_cons_of_neg _ (by simpa using hk)]
      exact ih hndrest hmem2

theorem clean_fid_list_snd_eq (d : ℕ) (cache : List (Circuit × List ℚ))
    (avail : List Circuit) (t : ℚ) :
    (clean_fid_list d cache avail t).2 =
    (clean_unique_keys d cache t).map
      (fun k => (k, lookup_mx (identity_pass d cache t) k)) := rfl

theorem clean_fid_list_fst_eq (d : ℕ) (cache : List (Circuit × List ℚ))
    (avail : List Circuit) (t : ℚ) :
    (clean_fid_list d cache avail t).1 =
    avail.filter (fun c => (clean_unique_keys d cache t).contains c) := rfl

theorem mem_identity_pass (d : ℕ) (cache : List (Circuit × List ℚ)) (t : ℚ)
    (p : Circuit × List ℚ) :
    p ∈ identity_pass d cache t ↔
    p ∈ cache ∧ (p.1 = [] ∨ is_close_mx p.2 (identity_mx d) t = false) := by
  rw [identity_pass, List.mem_filter]
  simp [Bool.not_eq_true]

theorem identity_pass_keys_nodup (d : ℕ) (cache : List (Circuit × List ℚ))
    (t : ℚ) (hnd : (cache.map Prod.fst).Nodup) :
    ((identity_pass d cache t).map Prod.fst).Nodup :=
  List.Nodup.sublist (List.Sublist.map Prod.fst (List.filter_sublist _)) hnd

theorem mem_clean_unique_keys_subset (d : ℕ) (cache : List (Circuit × List ℚ))
    (t : ℚ) (c : Circuit) (hc : c ∈ clean_unique_keys d cache t) :
    ∃ m, (c, m) ∈ identity_pass d cache t := by
  have hk := dedup_keys_subset (lookup_mx (identity_pass d cache t)) t
    ((identity_pass d cache t).map Prod.fst).length
    ((identity_pass d cache t).map Prod.fst) le_rfl c hc
  rcases List.mem_map.mp hk with ⟨p, hp, he⟩
  exact ⟨p.2, by rw [← he]; exact hp⟩

/-- C4: `clean_fid_list` with both cleaning passes enabled (a) removes
every circuit whose matrix is within `eq_thresh` Frobenius distance of the
identity, except the distinguished empty circuit; (b) always retains the
empty circuit (whose cached matrix is the identity, since the transfer
matrix of the empty circuit is `model.sim.product(()) = I`); (c) retains no
two circuits whose matrices are within `eq_thresh` of each other; and
(d) every circuit surviving the identity pass is either retained or within
`eq_thresh` of some retained circuit — so among near-duplicate circuits
exactly one representative is retained.  The cache is a Python dict, so its
keys are pairwise distinct (`hnd`). -/
theorem c4_clean_fid_list_identity_and_dedup (d : ℕ)
    (cache : List (Circuit × List ℚ)) (avail : List Circuit) (t : ℚ)
    (hnd : (cache.map Prod.fst).Nodup) :
    (∀ c m, (c, m) ∈ cache → c ≠ [] →
      is_close_mx m (identity_mx d) t = true →
      (∀ p ∈ (clean_fid_list d cache avail t).2, p.1 ≠ c) ∧
      c ∉ (clean_fid_list d cache avail t).1) ∧
    (([], identity_mx d) ∈ cache →
      (∃ p ∈ (clean_fid_list d cache avail t).2, p.1 = ([] : Circuit)) ∧
      (([] : Circuit) ∈ avail →
        ([] : Circuit) ∈ (clean_fid_list d cache avail t).1)) ∧
    (∀ p ∈ (clean_fid_list d cache avail t).2,
      ∀ q ∈ (clean_fid_list d cache avail t).2,
      p.1 ≠ q.1 → is_close_mx p.2 q.2 t = false) ∧
    (∀ c m, (c, m) ∈ cache →
      (c = [] ∨ is_close_mx m (identity_mx d) t = false) →
      (∃ p ∈ (clean_fid_list d cache avail t).2, p.1 = c) ∨
      (∃ p ∈ (clean_fid_list d cache avail t).2,
        is_close_mx m p.2 t = true)) := by
  have hnd1 := identity_pass_keys_nodup d cache t hnd
  have hlook : ∀ c m, (c, m) ∈ identity_pass d cache t →
      lookup_mx (identity_pass d cache t) c = m :=
    fun c m hm => lookup_mx_eq _ c m hnd1 hm
  have hcover : ∀ c ∈ (identity_pass d cache t).map Prod.fst,
      c ∈ clean_unique_keys d cache t ∨
      ∃ c2 ∈ clean_unique_keys d cache t,
        is_close_mx (lookup_mx (identity_pass d cache t) c)
          (lookup_mx (identity_pass d cache t) c2) t = true :=
    dedup_keys_cover (lookup_mx (identity_pass d cache t)) t
      ((identity_pass d cache t).map Prod.fst).length _ le_rfl
  have hpair := dedup_keys_pairwise (lookup_mx (identity_pass d cache t)) t
    ((identity_pass d cache t).map Prod.fst).length _ le_rfl
  refine ⟨?_, ?_, ?_, ?_⟩
  · -- (a) identity removal
    intro c m hmem hne hclose
    have hnotuniq : c ∉ clean_unique_keys d cache t := by
      intro hcu
      rcases mem_clean_unique_keys_subset d cache t c hcu with ⟨m2, hm2⟩
      have h2 := (mem_identity_pass d cache t _).mp hm2
      rcases h2.2 with he | hcl
      · exact hne he
      · have hm2m : m2 = m := mem_cache_key_unique cache c m2 m hnd h2.1 hmem
        rw [hm2m, hclose] at hcl
        cases hcl
    constructor
    · intro p hp he
      rw [clean_fid_list_snd_eq] at hp
      rcases List.mem_map.mp hp with ⟨k, hk, hke⟩
      rw [← hke] at he
      exact hnotuniq (he ▸ hk)
    · intro hin
      rw [clean_fid_list_fst_eq] at hin
      have hcont := (List.mem_filter.mp hin).2
      have : c ∈ clean_unique_keys d cache t := by
        simpa using hcont
      exact hnotuniq this
  · -- (b) the empty circuit is always retained
    intro hmemI
    have hIp : (([] : Circuit), identity_mx d) ∈ identity_pass d cache t :=
      (mem_identity_pass d cache t _).mpr ⟨hmemI, Or.inl rfl⟩
    have hIk : ([] : Circuit) ∈ (identity_pass d cache t).map Prod.fst :=
      List.mem_map_of_mem Prod.fst hIp
    have hlookI : lookup_mx (identity_pass d cache t) [] = identity_mx d :=
      hlook _ _ hIp
    have hEuniq : ([] : Circuit) ∈ clean_unique_keys d cache t := by
      rcases hcover [] hIk with hin | ⟨c2, hc2, hcl⟩
      · exact hin
      · by_cases hc2e : c2 = []
        · exact hc2e ▸ hc2
        · exfalso
          rcases mem_clean_unique_keys_subset d cache t c2 hc2 with ⟨m2, hm2⟩
          have h2 := (mem_identity_pass d cache t _).mp hm2
          have hlook2 : lookup_mx (identity_pass d cache t) c2 = m2 :=
            hlook _ _ hm2
          rcases h2.2 with he | hclf
          · exact hc2e he
          · rw [hlookI, hlook2, is_close_mx_comm] at hcl
            rw [hcl] at hclf
            cases hclf
    constructor
    · refine ⟨([], lookup_mx (identity_pass d cache t) []), ?_, rfl⟩
      rw [clean_fid_list_snd_eq]
      exact List.mem_map_of_mem _ hEuniq
    · intro havail
      rw [clean_fid_list_fst_eq]
      refine List.mem_filter.mpr ⟨havail, ?_⟩
      simpa using hEuniq
  · -- (c) no two retained circuits are close
    intro p hp q hq hne
    rw [clean_fid_list_snd_eq] at hp hq
    rcases List.mem_map.mp hp with ⟨k1, hk1, hke1⟩
    rcases List.mem_map.mp hq with ⟨k2, hk2, hke2⟩
    rw [← hke1, ← hke2]
    rw [← hke1, ← hke2] at hne
    have hkne : k1 ≠ k2 := by
      intro he
      exact hne (by rw [he])
    have hsymm : Symmetric (fun a b =>
        is_close_mx (lookup_mx (identity_pass d cache t) b)
          (lookup_mx (identity_pass d cache t) a) t = false) := by
      intro a b h
      rw [is_close_mx_comm]
      exact h
    have hR := List.Pairwise.forall hsymm hpair hk1 hk2 hkne
    rw [is_close_mx_comm] at hR
    exact hR
  · -- (d) every survivor of the identity pass is retained or near a
    -- retained circuit
    intro c m hmem hpredH
    have hcp : (c, m) ∈ identity_pass d cache t :=
      (mem_identity_pass d cache t _).mpr ⟨hmem, hpredH⟩
    have hck : c ∈ (identity_pass d cache t).map Prod.fst :=
      List.mem_map_of_mem Prod.fst hcp
    have hlookc : lookup_mx (identity_pass d cache t) c = m := hlook _ _ hcp
    rcases hcover c hck with hin | ⟨c2, hc2, hcl⟩
    · left
      refine ⟨(c, lookup_mx (identity_pass d cache t) c), ?_, rfl⟩
      rw [clean_fid_list_snd_eq]
      exact List.mem_map_of_mem _ hin
    · right
      refine ⟨(c2, lookup_mx (identity_pass d cache t) c2), ?_, ?_⟩
      · rw [clean_fid_list_snd_eq]
        exact List.mem_map_of_mem _ hc2
      · rw [← hlookc]
        exact hcl

/-- Witness for C4 at a concrete 1-dimensional cache containing the empty
circuit (identity matrix), a non-empty effective identity, and a
near-duplicate pair. -/
theorem c4_clean_fid_list_identity_and_dedup_witness :
    (∀ c m, (c, m) ∈ [(([] : Circuit), [(1 : ℚ)]), ([0], [1]), ([1], [5]),
        ([2], [5 + 1 / 100])] → c ≠ [] →
      is_close_mx m (identity_mx 1) (1 / 10) = true →
      (∀ p ∈ (clean_fid_list 1 [(([] : Circuit), [(1 : ℚ)]), ([0], [1]),
          ([1], [5]), ([2], [5 + 1 / 100])] [[], [0], [1], [2]] (1 / 10)).2,
        p.1 ≠ c) ∧
      c ∉ (clean_fid_list 1 [(([] : Circuit), [(1 : ℚ)]), ([0], [1]),
          ([1], [5]), ([2], [5 + 1 / 100])] [[], [0], [1], [2]] (1 / 10)).1) ∧
    (([], identity_mx 1) ∈ [(([] : Circuit), [(1 : ℚ)]), ([0], [1]),
        ([1], [5]), ([2], [5 + 1 / 100])] →
      (∃ p ∈ (clean_fid_list 1 [(([] : Circuit), [(1 : ℚ)]), ([0], [1]),
          ([1], [5]), ([2], [5 + 1 / 100])] [[], [0], [1], [2]] (1 / 10)).2,
        p.1 = ([] : Circuit)) ∧
      (([] : Circuit) ∈ [(([] : Circuit)), [0], [1], [2]] →
        ([] : Circuit) ∈ (clean_fid_list 1 [(([] : Circuit), [(1 : ℚ)]),
          ([0], [1]), ([1], [5]), ([2], [5 + 1 / 100])]
          [[], [0], [1], [2]] (1 / 10)).1)) ∧
    (∀ p ∈ (clean_fid_list 1 [(([] : Circuit), [(1 : ℚ)]), ([0], [1]),
        ([1], [5]), ([2], [5 + 1 / 100])] [[], [0], [1], [2]] (1 / 10)).2,
      ∀ q ∈ (clean_fid_list 1 [(([] : Circuit), [(1 : ℚ)]), ([0], [1]),
        ([1], [5]), ([2], [5 + 1 / 100])] [[], [0], [1], [2]] (1 / 10)).2,
      p.1 ≠ q.1 → is_close_mx p.2 q.2 (1 / 10) = false) ∧
    (∀ c m, (c, m) ∈ [(([] : Circuit), [(1 : ℚ)]), ([0], [1]), ([1], [5]),
        ([2], [5 + 1 / 100])] →
      (c = [] ∨ is_close_mx m (identity_mx 1) (1 / 10) = false) →
      (∃ p ∈ (clean_fid_list 1 [(([] : Circuit), [(1 : ℚ)]), ([0], [1]),
          ([1], [5]), ([2], [5 + 1 / 100])] [[], [0], [1], [2]] (1 / 10)).2,
        p.1 = c) ∨
      (∃ p ∈ (clean_fid_list 1 [(([] : Circuit), [(1 : ℚ)]), ([0], [1]),
          ([1], [5]), ([2], [5 + 1 / 100])] [[], [0], [1], [2]] (1 / 10)).2,
        is_close_mx m p.2 (1 / 10) = true)) :=
  c4_clean_fid_list_identity_and_dedup 1
    [(([] : Circuit), [(1 : ℚ)]), ([0], [1]), ([1], [5]), ([2], [5 + 1 / 100])]
    [[], [0], [1], [2]] (1 / 10) (by decide)
